import Mathlib

namespace Catprinter

/-! Shallow embedding of the catprinter repository (src/catprinter/ble.py and
src/print.py): Python sequence primitives, the chunkify generator, device
identifier resolution (uuid parsing and the colon address check), the BLE scan
filter, and the run_ble control flow. -/

/-- Resolve a Python slice endpoint for a sequence of length n: negative
indices count from the end, and the result is clamped into the range 0..n. -/
def clampIndex (n : Nat) (i : Int) : Nat :=
  if i < 0 then ((n : Int) + i).toNat else min i.toNat n

/-- Python slice data[i:j] with unit step. -/
def pySlice {α : Type} (xs : List α) (i j : Int) : List α :=
  (xs.drop (clampIndex xs.length i)).take
    (clampIndex xs.length j - clampIndex xs.length i)

/-- Number of elements of range(start, stop, step), following the CPython
computation in Objects/rangeobject.c (get_len_of_range); a zero step makes
range() raise ValueError, and every caller here guards that case. -/
def pyRangeLen (start stop step : Int) : Nat :=
  if 0 < step then
    if start < stop then (stop - start - 1).toNat / step.toNat + 1 else 0
  else if step < 0 then
    if stop < start then (start - stop - 1).toNat / (-step).toNat + 1 else 0
  else 0

/-- Python range(start, stop, step) as the list of its elements. -/
def pyRange (start stop step : Int) : List Int :=
  (List.range (pyRangeLen start stop step)).map
    (fun (k : Nat) => start + step * (k : Int))

/-- Translation of chunkify (ble.py, lines 57-59):
for i in range(0, len(data), size): yield data[i:i + size].
A zero size makes range() raise ValueError, modelled as none. -/
def chunkify {α : Type} (data : List α) (size : Int) : Option (List (List α)) :=
  if size = 0 then none
  else some ((pyRange 0 data.length size).map (fun i => pySlice data i (i + size)))

/-- Reference splitter: consecutive blocks of s elements, the last one may be
shorter. The stated properties of chunkify are proved against this. -/
def chunks {α : Type} (s : Nat) : List α → List (List α)
  | [] => []
  | x :: xs => (x :: xs).take s :: chunks s (xs.drop (s - 1))
termination_by l => l.length
decreasing_by simp only [List.length_drop, List.length_cons]; omega

/-! Character and string helpers modelling the CPython operations used by
get_device_address (ble.py): str.replace, str.strip, str.isalnum, str.count,
uuid.UUID parsing and its canonical str form. Strings are lists of
characters; the character classes are modelled over ASCII. -/

/-- ASCII whitespace stripped by int() and str.strip(). -/
def isPySpace (c : Char) : Bool :=
  c = ' ' || c = '\t' || c = '\n' || c = '\r' || c.toNat = 11 || c.toNat = 12

/-- ASCII reading of the alphanumeric test behind str.isalnum. -/
def pyIsAlnumChar (c : Char) : Bool :=
  ('0' ≤ c && c ≤ '9') || ('a' ≤ c && c ≤ 'z') || ('A' ≤ c && c ≤ 'Z')

/-- Python str.isalnum: non-empty and every character alphanumeric. -/
def pyIsAlnum (l : List Char) : Bool :=
  !l.isEmpty && l.all pyIsAlnumChar

/-- Hexadecimal digit as accepted by int(x, 16). -/
def hexDigit (c : Char) : Bool :=
  ('0' ≤ c && c ≤ '9') || ('a' ≤ c && c ≤ 'f') || ('A' ≤ c && c ≤ 'F')

/-- Value of a hexadecimal digit. -/
def hexVal (c : Char) : Nat :=
  if '0' ≤ c && c ≤ '9' then c.toNat - 48
  else if 'a' ≤ c && c ≤ 'f' then c.toNat - 87
  else c.toNat - 55

/-- Lowercase hexadecimal digits, the alphabet of the canonical identifier
form. -/
def lowerHexDigit (c : Char) : Bool :=
  c ∈ "0123456789abcdef".toList

/-- Lowercase hexadecimal digit for a value below 16, as produced by the
%032x formatting in uuid.UUID.__str__. -/
def hexChar : Nat → Char
  | 0 => '0' | 1 => '1' | 2 => '2' | 3 => '3' | 4 => '4'
  | 5 => '5' | 6 => '6' | 7 => '7' | 8 => '8' | 9 => '9'
  | 10 => 'a' | 11 => 'b' | 12 => 'c' | 13 => 'd' | 14 => 'e'
  | _ => 'f'

/-- Does the second list start with the first one. -/
def startsWith : List Char → List Char → Bool
  | [], _ => true
  | _ :: _, [] => false
  | p :: ps, x :: xs => p = x && startsWith ps xs

/-- Python str.replace for a non-empty pattern, scanning left to right over
non-overlapping occurrences; the list length is enough fuel because every
step consumes at least one character. -/
def replaceAllFuel (pat sub : List Char) : Nat → List Char → List Char
  | _, [] => []
  | 0, l => l
  | fuel + 1, c :: rest =>
    if pat ≠ [] ∧ startsWith pat (c :: rest) then
      sub ++ replaceAllFuel pat sub fuel ((c :: rest).drop pat.length)
    else c :: replaceAllFuel pat sub fuel rest

def replaceAll (pat sub : List Char) (l : List Char) : List Char :=
  replaceAllFuel pat sub l.length l

/-- Opening or closing curly brace (code points 123 and 125), the set
stripped by the uuid constructor. -/
def isBrace (c : Char) : Bool :=
  c.toNat = 123 || c.toNat = 125

/-- Python str.strip applied to the brace set: remove leading and trailing
braces. -/
def stripBraces (l : List Char) : List Char :=
  ((l.dropWhile isBrace).reverse.dropWhile isBrace).reverse

/-- Digits of a base-16 int() literal after the first digit: hexadecimal
digits with single underscores allowed between digits. -/
def hexRun (acc : Nat) : List Char → Option Nat
  | [] => some acc
  | c :: rest =>
    if hexDigit c then hexRun (16 * acc + hexVal c) rest
    else if c = '_' then
      match rest with
      | [] => none
      | d :: rest2 => if hexDigit d then hexRun (16 * acc + hexVal d) rest2 else none
    else none

/-- A non-empty run of digits starting with a hexadecimal digit. -/
def digitsRun : List Char → Option Nat
  | [] => none
  | c :: rest => if hexDigit c then hexRun (hexVal c) rest else none

/-- Digits after a 0x base marker; int() also allows a single underscore
directly after the marker. -/
def parseAfterBase : List Char → Option Nat
  | [] => none
  | c :: rest => if c = '_' then digitsRun rest else digitsRun (c :: rest)

/-- Body of a base-16 int() literal: optional 0x or 0X marker, then digits. -/
def parseHexCore : List Char → Option Nat
  | c0 :: c1 :: rest =>
    if c0 = '0' ∧ (c1 = 'x' ∨ c1 = 'X') then parseAfterBase rest
    else digitsRun (c0 :: c1 :: rest)
  | l => digitsRun l

/-- Python int(x, 16) on the 32 characters kept by the uuid constructor:
surrounding ASCII whitespace is ignored and a leading plus sign is allowed.
A minus sign cannot survive the dash removal performed by the caller, and a
negative value would in any case be rejected by the 128-bit range check of
uuid.UUID, so it maps to none. -/
def parseIntHex (l : List Char) : Option Nat :=
  let t1 := l.dropWhile isPySpace
  let t2 := (t1.reverse.dropWhile isPySpace).reverse
  match t2 with
  | [] => none
  | c :: rest =>
    if c = '+' then parseHexCore rest
    else if c = '-' then none
    else parseHexCore (c :: rest)

/-- Big-endian fixed-width lowercase hexadecimal rendering of a value, as
produced by %032x with leading zeros. -/
def natToHexPad : Nat → Nat → List Char
  | 0, _ => []
  | w + 1, v => natToHexPad w (v / 16) ++ [hexChar (v % 16)]

/-- str(uuid.UUID(...)): canonical lowercase dashed hexadecimal form with
groups of 8, 4, 4, 4 and 12 digits. -/
def canonicalOfNat (v : Nat) : List Char :=
  let h := natToHexPad 32 v
  h.take 8 ++ '-' :: (h.drop 8).take 4 ++ '-' :: (h.drop 12).take 4 ++
    '-' :: (h.drop 16).take 4 ++ '-' :: h.drop 20

/-- Model of str(uuid.UUID(device)): CPython uuid.py removes every urn: and
uuid: occurrence, strips surrounding braces, removes all dashes, requires
exactly 32 remaining characters forming a base-16 int() literal, and formats
the value back as the canonical dashed lowercase form. The value of at most
32 hexadecimal digits is below 2 to the 128, so the range check of the
constructor cannot fire here. -/
def pyUUID (l : List Char) : Option (List Char) :=
  let h := replaceAll ("-".toList) []
    (stripBraces (replaceAll ("uuid:".toList) [] (replaceAll ("urn:".toList) [] l)))
  if h.length = 32 then (parseIntHex h).map canonicalOfNat else none

/-- Python s.split(sep) for a one-character separator: the groups between
occurrences of the separator, in order, empty groups included. -/
def splitOnChar (c : Char) : List Char → List (List Char)
  | [] => [[]]
  | x :: xs =>
    match splitOnChar c xs with
    | [] => [[x]]
    | g :: gs => if x = c then [] :: g :: gs else (x :: g) :: gs

/-- Joining groups back with a one-character separator. -/
def joinSep (c : Char) : List (List Char) → List Char
  | [] => []
  | [g] => g
  | g :: gs => g ++ c :: joinSep c gs

/-- Observable outcome of get_device_address: either a string returned
without scanning, or a delegation to scan with the given name filter. -/
inductive AddrAction where
  | ret (s : List Char)
  | scanWith (nameFilter : List Char)
deriving DecidableEq

/-- Control flow of get_device_address (ble.py, lines 46-54): for a truthy
device string, first try uuid.UUID(device) and return its str form; next
return the string verbatim when it has exactly five colons and its remaining
characters are alphanumeric; otherwise, and for a falsy device string, fall
through to scan(device, ...). -/
def classify_device (device : List Char) : AddrAction :=
  if device ≠ [] then
    match pyUUID device with
    | some canon => .ret canon
    | none =>
      if device.count ':' = 5 ∧ pyIsAlnum (replaceAll [':'] [] device) = true then
        .ret device
      else .scanWith device
  else .scanWith device

/-- Claim C3 reading of the first branch: canonical dashed hexadecimal
128-bit identifier form, five dash-separated groups of lowercase hexadecimal
digits with lengths 8, 4, 4, 4 and 12 (RFC 4122 canonical textual form). -/
def isCanonicalUUIDForm (l : List Char) : Bool :=
  match splitOnChar '-' l with
  | [a, b, c, d, e] =>
    a.length = 8 && b.length = 4 && c.length = 4 && d.length = 4 &&
      e.length = 12 && (a ++ b ++ c ++ d ++ e).all lowerHexDigit
  | _ => false

/-- Claim C3 reading of the second branch: six non-empty colon-separated
groups of hexadecimal digits (the transport address form). -/
def isColonHexForm (l : List Char) : Bool :=
  (splitOnChar ':' l).length = 6 &&
    (splitOnChar ':' l).all (fun g => !g.isEmpty && g.all hexDigit)

/-- Resolver behaviour exactly as claim C3 states it: canonical identifiers
and colon-separated hexadecimal addresses are returned verbatim, everything
else is delegated to the scanner. -/
def claimed_resolver (device : List Char) : AddrAction :=
  if isCanonicalUUIDForm device then .ret device
  else if isColonHexForm device then .ret device
  else .scanWith device

/-- Resolver behaviour as amended: whatever the identifier parser accepts is
returned in canonical form; the verbatim branch needs exactly six
colon-separated groups whose characters are alphanumeric with at least one
such character, hexadecimality not required; everything else is delegated. -/
def amended_resolver (device : List Char) : AddrAction :=
  match pyUUID device with
  | some canon => .ret canon
  | none =>
    if (splitOnChar ':' device).length = 6 ∧
        (∀ g ∈ splitOnChar ':' device, ∀ c ∈ g, pyIsAlnumChar c = true) ∧
        (splitOnChar ':' device).flatten ≠ [] then
      .ret device
    else .scanWith device

/-! Model of the BLE layer of ble.py: the scan filter, get_device_address
with scanning, and the run_ble control flow. External transport behaviour is
an explicit environment: the advertisements observed within the scan
timeout, the negotiated mtu_size, and the rendering and command-encoding
collaborators (text_to_image and cmds_print_img live outside this core and
are treated as opaque byte-buffer producers). The trace records the connect
step and every write_gatt_char call, with prepare() and finish() writes
tagged by their call sites, plus the pacing sleep after each chunk. -/

deriving instance DecidableEq for Except

structure BLEDev where
  name : Option (List Char)
  address : List Char
deriving DecidableEq

structure AdvData where
  service_uuids : List (List Char)
deriving DecidableEq

def POSSIBLE_SERVICE_UUIDS : List (List Char) :=
  ["0000ae30-0000-1000-8000-00805f9b34fb".toList,
   "0000af30-0000-1000-8000-00805f9b34fb".toList]

/-- The matches callback of scan (ble.py, lines 33-36): in auto-discovery
mode (falsy name) an advertisement matches when one of the two known service
identifiers occurs among its advertised service uuids; otherwise the
advertised device name must equal the requested name exactly. -/
def matchesAdv (name : List Char) (device : BLEDev) (adv : AdvData) : Bool :=
  if name = [] then POSSIBLE_SERVICE_UUIDS.any (fun u => adv.service_uuids.contains u)
  else device.name == some name

def notFoundMsg : List Char :=
  "Printer not found. Ensure it is powered on and nearby.".toList

/-- Model of scan (ble.py, lines 27-43): find_device_by_filter returns the
first advertisement observed within the timeout that satisfies the matches
callback; when none does, scan raises RuntimeError with the printer-not-found
message. -/
def scanFind (observed : List (BLEDev × AdvData)) (name : List Char) :
    Except (List Char) BLEDev :=
  match observed.find? (fun p => matchesAdv name p.1 p.2) with
  | some p => .ok p.1
  | none => .error notFoundMsg

/-- Model of get_device_address (ble.py, lines 46-54) including the scan
fallback: the pure classification decides the branch, and the scan branch
resolves through the observed advertisements, returning the address of the
found device. -/
def get_device_address (observed : List (BLEDev × AdvData)) (device : List Char) :
    Except (List Char) (List Char) :=
  match classify_device device with
  | .ret s => .ok s
  | .scanWith n => (scanFind observed n).map (fun d => d.address)

/-- External state of one run: input mode and lines, advertisements observed
during a scan, negotiated mtu, and the rendering and encoding collaborators. -/
structure Env where
  isatty : Bool
  stdinLines : List (List Char)
  observed : List (BLEDev × AdvData)
  mtu : Nat
  render : List Char → List Nat
  encodeImg : List Nat → Bool → List Nat

inductive Event where
  | connect (address : List Char)
  | writePrepare
  | writeChunk (c : List Nat)
  | writeFinish
  | sleep
deriving DecidableEq

structure RunResult where
  trace : List Event
  loggedError : Option (List Char)
deriving DecidableEq

/-- Python line.rstrip applied to the newline character. -/
def pyRstrip (l : List Char) : List Char :=
  (l.reverse.dropWhile (fun c => c = '\n')).reverse

/-- Python str.strip() over ASCII whitespace. -/
def pyStripWs (l : List Char) : List Char :=
  ((l.dropWhile isPySpace).reverse.dropWhile isPySpace).reverse

/-- ASCII reading of str.lower(). -/
def pyLowerChar (c : Char) : Char :=
  if 'A' ≤ c ∧ c ≤ 'Z' then Char.ofNat (c.toNat + 32) else c

def pyLower (l : List Char) : List Char :=
  l.map pyLowerChar

/-- Interactive branch of get_input_lines (ble.py, lines 69-79): strip each
typed line, skip blank ones, stop at exit or quit or end of input. -/
def interactiveLines : List (List Char) → List (List Char)
  | [] => []
  | l :: ls =>
    let s := pyStripWs l
    if s = [] then interactiveLines ls
    else if pyLower s = "exit".toList ∨ pyLower s = "quit".toList then []
    else s :: interactiveLines ls

/-- Translation of get_input_lines (ble.py, lines 62-79): piped input yields
every line with its trailing newlines removed; interactive input filters as
above. -/
def get_input_lines (env : Env) : List (List Char) :=
  if env.isatty then interactiveLines env.stdinLines
  else env.stdinLines.map pyRstrip

/-- Writes issued for one print job: the encoded command buffer is chunked
and each fragment write is followed by the pacing sleep; none models the
ValueError that chunkify raises on a zero chunk size. -/
def jobEvents (env : Env) (csize : Int) (text : List Char) : Option (List Event) :=
  (chunkify (env.encodeImg (env.render text) (!env.isatty)) csize).map
    (fun cs => (cs.map (fun c => [Event.writeChunk c, Event.sleep])).flatten)

/-- The streaming loop of run_ble (ble.py, lines 101-114): blank lines are
skipped, every other line is rendered, encoded and streamed in order. -/
def streamAll (env : Env) (csize : Int) : List (List Char) → Option (List Event)
  | [] => some []
  | t :: ts =>
    if t = [] then streamAll env csize ts
    else
      match jobEvents env csize t, streamAll env csize ts with
      | some evs, some rest => some (evs ++ rest)
      | _, _ => none

/-- Translation of run_ble (ble.py, lines 84-118): resolve the address,
logging the RuntimeError and returning normally when resolution fails;
otherwise connect, compute chunk_size = mtu_size - 3, write prepare(),
stream every non-blank input line, and write finish(). The none outcome
models an uncaught exception escaping run_ble. -/
def run_ble (env : Env) (device : List Char) : Option RunResult :=
  match get_device_address env.observed device with
  | .error e => some { trace := [], loggedError := some e }
  | .ok addr =>
    match streamAll env ((env.mtu : Int) - 3) (get_input_lines env) with
    | none => none
    | some evs =>
      some { trace := Event.connect addr :: Event.writePrepare :: evs ++ [Event.writeFinish],
             loggedError := none }

/-- Translation of main (print.py, lines 34-41): after argument parsing the
entry point just runs run_ble on the requested device string. -/
def mainEntry (env : Env) (deviceArg : List Char) : Option RunResult :=
  run_ble env deviceArg

/-- Chunk payloads carried by a trace, in write order. -/
def chunkPayloads (t : List Event) : List (List Nat) :=
  t.filterMap (fun e => match e with | .writeChunk c => some c | _ => none)

/-! Concrete fixtures used by the witness theorems and the end-to-end run. -/

def wdev : BLEDev := { name := some ("GB02".toList), address := "AA".toList }

def wadvGood : AdvData :=
  { service_uuids := ["0000ae30-0000-1000-8000-00805f9b34fb".toList] }

def wadvBad : AdvData := { service_uuids := ["1234".toList] }

def wenv : Env :=
  { isatty := false, stdinLines := [], observed := [(wdev, wadvGood)], mtu := 23,
    render := fun _ => [1, 2, 3, 4, 5, 6, 7], encodeImg := fun img _ => img }

def wenvEmpty : Env :=
  { isatty := false, stdinLines := [], observed := [], mtu := 23,
    render := fun _ => [], encodeImg := fun img _ => img }

def env8 : Env :=
  { isatty := false,
    stdinLines := ["hello".toList, [], "world".toList],
    observed := [], mtu := 23,
    render := fun t => t.map (fun c => c.toNat % 256),
    encodeImg := fun img _ => img }

theorem chunks_nil {α : Type} (s : Nat) : chunks s ([] : List α) = [] := by
  rw [chunks]

theorem chunks_cons {α : Type} (s : Nat) (x : α) (xs : List α) :
    chunks s (x :: xs) = (x :: xs).take s :: chunks s (xs.drop (s - 1)) := by
  rw [chunks]

theorem drop_pred_cons {α : Type} (s : Nat) (hs : 0 < s) (x : α) (xs : List α) :
    xs.drop (s - 1) = (x :: xs).drop s := by
  cases s with
  | zero => omega
  | succ t => simp [List.drop_succ_cons]

theorem chunks_join {α : Type} (s : Nat) (hs : 0 < s) (l : List α) :
    (chunks s l).flatten = l := by
  induction l using chunks.induct s with
  | case1 => simp [chunks_nil]
  | case2 x xs ih =>
    rw [chunks_cons, List.flatten_cons, ih, drop_pred_cons s hs x xs,
      List.take_append_drop]

theorem chunks_length {α : Type} (s : Nat) (hs : 0 < s) (l : List α) :
    (chunks s l).length = (l.length + s - 1) / s := by
  induction l using chunks.induct s with
  | case1 =>
    rw [chunks_nil]
    simp only [List.length_nil]
    rw [Nat.div_eq_of_lt (by omega)]
  | case2 x xs ih =>
    rw [chunks_cons]
    simp only [List.length_cons, List.length_drop] at *
    rw [ih]
    rcases le_or_lt (s - 1) xs.length with h | h
    · have h1 : xs.length - (s - 1) + s - 1 = xs.length := by omega
      have h2 : xs.length + 1 + s - 1 = xs.length + s := by omega
      rw [h1, h2, Nat.add_div_right _ hs]
    · have h1 : xs.length - (s - 1) + s - 1 = s - 1 := by omega
      have h3 : (xs.length + 1 + s - 1) / s = 1 := by
        apply Nat.div_eq_of_lt_le
        · omega
        · omega
      rw [h1, Nat.div_eq_of_lt (by omega), h3]

theorem chunks_sizes_le {α : Type} (s : Nat) (l : List α) :
    ∀ c ∈ chunks s l, c.length ≤ s := by
  induction l using chunks.induct s with
  | case1 => simp [chunks_nil]
  | case2 x xs ih =>
    rw [chunks_cons]
    intro c hc
    rcases List.mem_cons.mp hc with rfl | hc
    · simp only [List.length_take]
      omega
    · exact ih c hc

theorem chunks_sizes_exact {α : Type} (s : Nat) (hs : 0 < s) (l : List α)
    (hmod : l.length % s = 0) : ∀ c ∈ chunks s l, c.length = s := by
  induction l using chunks.induct s with
  | case1 => simp [chunks_nil]
  | case2 x xs ih =>
    have hsle : s ≤ xs.length + 1 := by
      by_contra hlt
      have : (x :: xs).length % s = (x :: xs).length := Nat.mod_eq_of_lt (by simp; omega)
      simp only [List.length_cons] at this hmod
      omega
    rw [chunks_cons]
    intro c hc
    rcases List.mem_cons.mp hc with rfl | hc
    · simp only [List.length_take, List.length_cons]
      omega
    · refine ih ?_ c hc
      simp only [List.length_drop]
      have he : xs.length - (s - 1) + s = xs.length + 1 := by omega
      have := Nat.add_mod_right (xs.length - (s - 1)) s
      rw [he] at this
      simp only [List.length_cons] at hmod
      omega

theorem chunks_decomp {α : Type} (s : Nat) (hs : 0 < s) (l : List α)
    (hmod : l.length % s ≠ 0) :
    ∃ front lastc, chunks s l = front ++ [lastc] ∧
      (∀ c ∈ front, c.length = s) ∧ lastc.length = l.length % s ∧
      lastc.length < s := by
  induction l using chunks.induct s with
  | case1 => simp at hmod
  | case2 x xs ih =>
    rcases le_or_lt (x :: xs).length s with hle | hgt
    · -- single chunk: the whole list, strictly shorter than s
      have hlt : (x :: xs).length < s := by
        rcases Nat.lt_or_ge (x :: xs).length s with h | h
        · exact h
        · exfalso
          have : (x :: xs).length = s := by omega
          rw [this, Nat.mod_self] at hmod
          exact hmod rfl
      have hdrop : xs.drop (s - 1) = [] := by
        apply List.drop_eq_nil_of_le
        simp only [List.length_cons] at hlt
        omega
      refine ⟨[], x :: xs, ?_, by simp, ?_, ?_⟩
      · rw [chunks_cons, hdrop, chunks_nil, List.take_of_length_le hle]
        simp
      · rw [Nat.mod_eq_of_lt hlt]
      · exact hlt
    · -- head chunk of exact size s, recurse into the rest
      have hmod2 : (xs.drop (s - 1)).length % s ≠ 0 := by
        simp only [List.length_drop]
        have he : xs.length - (s - 1) + s = xs.length + 1 := by
          simp only [List.length_cons] at hgt; omega
        have := Nat.add_mod_right (xs.length - (s - 1)) s
        rw [he] at this
        simp only [List.length_cons] at hmod
        omega
      obtain ⟨front, lastc, heq, hfront, hlast, hlt⟩ := ih hmod2
      refine ⟨(x :: xs).take s :: front, lastc, ?_, ?_, ?_, hlt⟩
      · rw [chunks_cons, heq]; simp
      · intro c hc
        rcases List.mem_cons.mp hc with rfl | hc
        · simp only [List.length_take, List.length_cons]
          simp only [List.length_cons] at hgt
          omega
        · exact hfront c hc
      · rw [hlast]
        simp only [List.length_drop, List.length_cons]
        have he : xs.length - (s - 1) + s = xs.length + 1 := by
          simp only [List.length_cons] at hgt; omega
        have := Nat.add_mod_right (xs.length - (s - 1)) s
        rw [he] at this
        omega

theorem take_min {α : Type} (l : List α) (m : Nat) :
    l.take (min m l.length) = l.take m := by
  rw [List.take_eq_take]
  omega

theorem pySlice_zero {α : Type} (l : List α) (j : Int) (hj : 0 ≤ j) :
    pySlice l 0 j = l.take j.toNat := by
  simp only [pySlice, clampIndex]
  rw [if_neg (by omega), if_neg (by omega)]
  have h0 : min (0 : Int).toNat l.length = 0 := by omega
  rw [h0, List.drop_zero, Nat.sub_zero, take_min]

theorem pySlice_shift {α : Type} (l : List α) (s : Nat) (a b : Int)
    (ha : 0 ≤ a) (hb : 0 ≤ b) :
    pySlice l (a + (s : Int)) (b + (s : Int)) = pySlice (l.drop s) a b := by
  simp only [pySlice, clampIndex, List.length_drop]
  rw [if_neg (by omega), if_neg (by omega), if_neg (by omega), if_neg (by omega)]
  rw [List.drop_drop]
  rcases le_or_lt s l.length with h | h
  · have e1 : min (a + (s : Int)).toNat l.length = s + min a.toNat (l.length - s) := by
      omega
    have e2 : min (b + (s : Int)).toNat l.length - min (a + (s : Int)).toNat l.length
        = min b.toNat (l.length - s) - min a.toNat (l.length - s) := by
      omega
    rw [e2, e1]
  · rw [List.drop_eq_nil_of_le (by omega), List.drop_eq_nil_of_le (by omega)]
    simp

theorem pyRangeLen_zero_nil (size : Int) (hs : 0 < size) :
    pyRangeLen 0 ((0 : Nat) : Int) size = 0 := by
  unfold pyRangeLen
  rw [if_pos hs, if_neg (by omega)]

theorem pyRangeLen_zero_pos (size : Int) (hs : 0 < size) (n : Nat) (hn : 0 < n) :
    pyRangeLen 0 (n : Int) size = (n - 1) / size.toNat + 1 := by
  unfold pyRangeLen
  rw [if_pos hs, if_pos (by omega)]
  have he : ((n : Int) - 0 - 1).toNat = n - 1 := by omega
  rw [he]

theorem range_map_slice {α : Type} (size : Int) (hs : 0 < size) :
    ∀ (data : List α),
      (pyRange 0 (data.length : Int) size).map (fun i => pySlice data i (i + size))
        = chunks size.toNat data := by
  have main : ∀ (n : Nat) (data : List α), data.length = n →
      (pyRange 0 (data.length : Int) size).map (fun i => pySlice data i (i + size))
        = chunks size.toNat data := by
    intro n
    induction n using Nat.strong_induction_on with
    | _ n ih =>
      intro data hlen
      have hsd : ((size.toNat : Nat) : Int) = size := Int.toNat_of_nonneg (le_of_lt hs)
      have hspos : 0 < size.toNat := by omega
      match data with
      | [] =>
        rw [chunks_nil, pyRange]
        have h0 : pyRangeLen 0 ((List.length ([] : List α)) : Int) size = 0 := by
          unfold pyRangeLen
          rw [if_pos hs, if_neg (by simp)]
        rw [h0]
        simp
      | x :: xs =>
        set s : Nat := size.toNat with hsdef
        have hlen1 : (x :: xs).length = xs.length + 1 := by simp
        rw [pyRange, hlen1, pyRangeLen_zero_pos size hs (xs.length + 1) (by omega)]
        have hL : xs.length + 1 - 1 = xs.length := by omega
        rw [hL, List.range_succ_eq_map, List.map_cons, List.map_map]
        have hhead : pySlice (x :: xs) (0 + size * ((0 : Nat) : Int))
            (0 + size * ((0 : Nat) : Int) + size) = (x :: xs).take s := by
          have e0 : (0 : Int) + size * ((0 : Nat) : Int) = 0 := by simp
          rw [e0]
          have e1 : (0 : Int) + size = size := by omega
          rw [e1, pySlice_zero _ size (le_of_lt hs)]
        have htail :
            (List.range (xs.length / s)).map
              ((fun i => pySlice (x :: xs) i (i + size)) ∘
                (fun k : Nat => 0 + size * (k : Int)) ∘ Nat.succ)
            = chunks s ((x :: xs).drop s) := by
          have hdlen : ((x :: xs).drop s).length = xs.length + 1 - s := by
            simp only [List.length_drop]
            omega
          have hrec := ih (xs.length + 1 - s) (by omega) ((x :: xs).drop s) hdlen
          have hlen2 : pyRangeLen 0 (((x :: xs).drop s).length : Int) size
              = xs.length / s := by
            rw [hdlen]
            rcases le_or_lt (xs.length + 1) s with hcase | hcase
            · have hz : xs.length + 1 - s = 0 := by omega
              rw [hz, pyRangeLen_zero_nil size hs, Nat.div_eq_of_lt (by omega)]
            · rw [pyRangeLen_zero_pos size hs _ (by omega)]
              have he : xs.length + 1 - s - 1 = xs.length - s := by omega
              rw [he, ← hsdef]
              have he2 : xs.length = xs.length - s + s := by omega
              rw [he2, Nat.add_div_right _ hspos]
              have he3 : xs.length - s + s - s = xs.length - s := by omega
              rw [he3]
          rw [pyRange, hlen2] at hrec
          rw [← hrec, List.map_map]
          apply List.map_congr_left
          intro k hk
          simp only [Function.comp_apply]
          have ea : (0 : Int) + size * ((Nat.succ k : Nat) : Int)
              = (0 + size * (k : Int)) + (s : Int) := by
            rw [hsd]
            push_cast
            ring
          have eb : (0 : Int) + size * (k : Int) + (s : Int) + size
              = (0 + size * (k : Int) + size) + (s : Int) := by
            ring
          have ha : (0 : Int) ≤ 0 + size * (k : Int) := by
            have := mul_nonneg (le_of_lt hs) (Int.natCast_nonneg k)
            omega
          have hb : (0 : Int) ≤ 0 + size * (k : Int) + size := by
            have := mul_nonneg (le_of_lt hs) (Int.natCast_nonneg k)
            omega
          rw [ea, eb, pySlice_shift (x :: xs) s _ _ ha hb]
        rw [List.map_cons, List.map_map, hhead, htail, chunks_cons,
          drop_pred_cons s hspos x xs]
  exact fun data => main data.length data rfl

theorem chunkify_eq_chunks {α : Type} (data : List α) (size : Int) (hs : 0 < size) :
    chunkify data size = some (chunks size.toNat data) := by
  unfold chunkify
  rw [if_neg (by omega)]
  rw [range_map_slice size hs data]

theorem chunks_get {α : Type} (s : Nat) (hs : 0 < s) (l : List α) :
    ∀ (k : Nat) (hk : k < (chunks s l).length),
      (chunks s l).get ⟨k, hk⟩ = (l.drop (s * k)).take s := by
  induction l using chunks.induct s with
  | case1 =>
    intro k hk
    rw [chunks_nil] at hk
    simp at hk
  | case2 x xs ih =>
    intro k
    rw [chunks_cons]
    intro hk
    match k with
    | 0 => simp
    | k + 1 =>
      have hk2 : k < (chunks s (xs.drop (s - 1))).length := by
        simp only [List.length_cons] at hk
        omega
      simp only [List.get_cons_succ]
      refine (ih k hk2).trans ?_
      rw [drop_pred_cons s hs x xs, List.drop_drop]
      have he : s + s * k = s * (k + 1) := by ring
      rw [he]

/-- C1: for every byte buffer B and every fragment size F > 0, the fragments
produced by chunkify(B, F) are consecutive, non-overlapping slices of B (the
k-th fragment is the slice of length at most F starting at offset F * k),
their concatenation in yield order equals B exactly, and the number of
fragments equals ceil(len(B) / F). -/
theorem C1_chunkify_partition (B : List Nat) (F : Int) (hF : 0 < F) :
    ∃ cs, chunkify B F = some cs ∧ cs.flatten = B ∧
      cs.length = (B.length + F.toNat - 1) / F.toNat ∧
      ∀ (k : Nat) (hk : k < cs.length),
        cs.get ⟨k, hk⟩ = (B.drop (F.toNat * k)).take F.toNat := by
  have hs : 0 < F.toNat := by omega
  exact ⟨chunks F.toNat B, chunkify_eq_chunks B F hF, chunks_join _ hs B,
    chunks_length _ hs B, chunks_get _ hs B⟩

theorem C1_witness :
    (0 : Int) < 2 ∧ ∃ cs, chunkify ([10, 20, 30] : List Nat) 2 = some cs ∧
      cs.flatten = [10, 20, 30] ∧
      cs.length = (([10, 20, 30] : List Nat).length + (2 : Int).toNat - 1) / (2 : Int).toNat ∧
      ∀ (k : Nat) (hk : k < cs.length),
        cs.get ⟨k, hk⟩ = (([10, 20, 30] : List Nat).drop ((2 : Int).toNat * k)).take (2 : Int).toNat :=
  ⟨by decide, C1_chunkify_partition [10, 20, 30] 2 (by decide)⟩

/-- C2: for every byte buffer B and fragment size F > 0, every fragment has
length at most F; when len(B) mod F is non-zero exactly one fragment, the
last, is strictly shorter than F; otherwise every fragment has length
exactly F. -/
theorem C2_fragment_sizes (B : List Nat) (F : Int) (hF : 0 < F) :
    ∃ cs, chunkify B F = some cs ∧ (∀ c ∈ cs, c.length ≤ F.toNat) ∧
      (B.length % F.toNat = 0 → ∀ c ∈ cs, c.length = F.toNat) ∧
      (B.length % F.toNat ≠ 0 →
        ∃ front lastc, cs = front ++ [lastc] ∧
          (∀ c ∈ front, c.length = F.toNat) ∧ lastc.length < F.toNat ∧
          cs.countP (fun c => decide (c.length < F.toNat)) = 1) := by
  have hs : 0 < F.toNat := by omega
  refine ⟨chunks F.toNat B, chunkify_eq_chunks B F hF, chunks_sizes_le _ B,
    fun h => chunks_sizes_exact _ hs B h, ?_⟩
  intro hmod
  obtain ⟨front, lastc, heq, hfront, hlast, hlt⟩ := chunks_decomp _ hs B hmod
  refine ⟨front, lastc, heq, hfront, hlt, ?_⟩
  rw [heq, List.countP_append]
  have h0 : front.countP (fun c => decide (c.length < F.toNat)) = 0 := by
    rw [List.countP_eq_zero]
    intro c hc
    simp only [decide_eq_true_eq]
    have := hfront c hc
    omega
  rw [h0, List.countP_cons, List.countP_nil, if_pos (decide_eq_true hlt)]

theorem C2_witness :
    (0 : Int) < 2 ∧ ∃ cs, chunkify ([1, 2, 3] : List Nat) 2 = some cs ∧
      (∀ c ∈ cs, c.length ≤ (2 : Int).toNat) ∧
      (([1, 2, 3] : List Nat).length % (2 : Int).toNat = 0 → ∀ c ∈ cs, c.length = (2 : Int).toNat) ∧
      (([1, 2, 3] : List Nat).length % (2 : Int).toNat ≠ 0 →
        ∃ front lastc, cs = front ++ [lastc] ∧
          (∀ c ∈ front, c.length = (2 : Int).toNat) ∧ lastc.length < (2 : Int).toNat ∧
          cs.countP (fun c => decide (c.length < (2 : Int).toNat)) = 1) :=
  ⟨by decide, C2_fragment_sizes [1, 2, 3] 2 (by decide)⟩

/-- C9: the guarantees of chunkify need a fragment size strictly greater than
zero: with size 0 the underlying range() raises ValueError for every buffer,
and with any negative size and non-empty buffer chunkify yields zero
fragments, so the concatenation-reproduces-buffer property fails. -/
theorem C9_chunkify_size_precondition :
    (∀ B : List Nat, chunkify B 0 = none) ∧
    (∀ size : Int, size < 0 → ∀ B : List Nat, B ≠ [] →
      chunkify B size = some [] ∧ ([] : List (List Nat)).flatten ≠ B) := by
  constructor
  · intro B
    simp [chunkify]
  · intro size hneg B hB
    constructor
    · unfold chunkify
      rw [if_neg (by omega)]
      have h0 : pyRangeLen 0 (B.length : Int) size = 0 := by
        unfold pyRangeLen
        rw [if_neg (by omega), if_pos hneg, if_neg (by omega)]
      rw [pyRange, h0]
      simp
    · simp only [List.flatten_nil]
      exact fun h => hB h.symm

theorem C9_witness :
    chunkify ([7] : List Nat) 0 = none ∧ chunkify ([7] : List Nat) (-2) = some [] :=
  ⟨C9_chunkify_size_precondition.1 [7],
   (C9_chunkify_size_precondition.2 (-2) (by decide) [7] (by decide)).1⟩

theorem splitOnChar_cons (c x : Char) (xs g : List Char) (gs : List (List Char))
    (h : splitOnChar c xs = g :: gs) :
    splitOnChar c (x :: xs) = if x = c then [] :: g :: gs else (x :: g) :: gs := by
  rw [splitOnChar, h]

theorem splitOnChar_ne_nil (c : Char) (l : List Char) : splitOnChar c l ≠ [] := by
  induction l with
  | nil => simp [splitOnChar]
  | cons x xs ih =>
    rcases h : splitOnChar c xs with _ | ⟨g, gs⟩
    · exact absurd h ih
    · rw [splitOnChar_cons c x xs g gs h]
      split <;> simp

theorem splitOnChar_length (c : Char) (l : List Char) :
    (splitOnChar c l).length = l.count c + 1 := by
  induction l with
  | nil => simp [splitOnChar]
  | cons x xs ih =>
    rcases h : splitOnChar c xs with _ | ⟨g, gs⟩
    · exact absurd h (splitOnChar_ne_nil c xs)
    · rw [h] at ih
      rw [splitOnChar_cons c x xs g gs h]
      by_cases hx : x = c
      · rw [if_pos hx]
        simp only [List.length_cons] at ih ⊢
        simp [List.count_cons, hx]
        omega
      · rw [if_neg hx]
        simp only [List.length_cons] at ih ⊢
        simp [List.count_cons, hx]
        omega

theorem splitOnChar_flatten (c : Char) (l : List Char) :
    (splitOnChar c l).flatten = l.filter (fun x => x ≠ c) := by
  induction l with
  | nil => simp [splitOnChar]
  | cons x xs ih =>
    rcases h : splitOnChar c xs with _ | ⟨g, gs⟩
    · exact absurd h (splitOnChar_ne_nil c xs)
    · rw [h] at ih
      rw [splitOnChar_cons c x xs g gs h]
      by_cases hx : x = c
      · rw [if_pos hx]
        simp only [List.flatten_cons, List.nil_append] at ih ⊢
        rw [List.filter_cons, if_neg (by simp [hx])]
        simpa using ih
      · rw [if_neg hx]
        simp only [List.flatten_cons] at ih ⊢
        rw [List.filter_cons, if_pos (by simp [hx])]
        rw [List.cons_append, ih]

theorem joinSep_splitOnChar (c : Char) (l : List Char) :
    joinSep c (splitOnChar c l) = l := by
  induction l with
  | nil => simp [splitOnChar, joinSep]
  | cons x xs ih =>
    rcases h : splitOnChar c xs with _ | ⟨g, gs⟩
    · exact absurd h (splitOnChar_ne_nil c xs)
    · rw [h] at ih
      rw [splitOnChar_cons c x xs g gs h]
      by_cases hx : x = c
      · rw [if_pos hx]
        subst hx
        simp only [joinSep] at ih ⊢
        rcases gs with _ | ⟨g2, gs2⟩ <;> simp_all [joinSep]
      · rw [if_neg hx]
        rcases gs with _ | ⟨g2, gs2⟩
        · simp only [joinSep] at ih ⊢
          rw [ih]
        · simp only [joinSep] at ih ⊢
          rw [List.cons_append, ih]

theorem startsWith_mem : ∀ (p l : List Char), startsWith p l = true → ∀ x ∈ p, x ∈ l := by
  intro p
  induction p with
  | nil => simp
  | cons a ps ih =>
    intro l hsw x hx
    cases l with
    | nil => simp [startsWith] at hsw
    | cons y ys =>
      simp only [startsWith, Bool.and_eq_true, decide_eq_true_eq] at hsw
      rcases List.mem_cons.mp hx with rfl | hx
      · rw [hsw.1]
        exact List.mem_cons_self y ys
      · exact List.mem_cons_of_mem y (ih ys hsw.2 x hx)

theorem replaceAllFuel_no_occ (pat sub : List Char) (d : Char) (hd : d ∈ pat) :
    ∀ (fuel : Nat) (l : List Char), d ∉ l → replaceAllFuel pat sub fuel l = l := by
  intro fuel
  induction fuel with
  | zero =>
    intro l hl
    cases l <;> simp [replaceAllFuel]
  | succ fuel ih =>
    intro l hnot
    cases l with
    | nil => simp [replaceAllFuel]
    | cons x rest =>
      rw [replaceAllFuel]
      have hcond : ¬ (pat ≠ [] ∧ startsWith pat (x :: rest) = true) := by
        rintro ⟨-, hsw⟩
        exact hnot (startsWith_mem pat (x :: rest) hsw d hd)
      rw [if_neg hcond]
      have : d ∉ rest := fun h => hnot (List.mem_cons_of_mem x h)
      rw [ih rest this]

theorem replaceAll_no_occ (pat sub : List Char) (d : Char) (hd : d ∈ pat)
    (l : List Char) (hnot : d ∉ l) : replaceAll pat sub l = l :=
  replaceAllFuel_no_occ pat sub d hd l.length l hnot

theorem replaceAllFuel_single (c : Char) :
    ∀ (fuel : Nat) (l : List Char), l.length ≤ fuel →
      replaceAllFuel [c] [] fuel l = l.filter (fun x => x ≠ c) := by
  intro fuel
  induction fuel with
  | zero =>
    intro l hl
    have : l = [] := List.eq_nil_of_length_eq_zero (by omega)
    subst this
    simp [replaceAllFuel]
  | succ fuel ih =>
    intro l hl
    cases l with
    | nil => simp [replaceAllFuel]
    | cons x rest =>
      rw [replaceAllFuel]
      by_cases hx : x = c
      · rw [if_pos ⟨by simp, by simp [startsWith, hx]⟩]
        show replaceAllFuel [c] [] fuel rest = List.filter (fun y => decide (y ≠ c)) (x :: rest)
        rw [ih rest (by simp at hl; omega)]
        rw [List.filter_cons, if_neg (by simp [hx])]
      · have hsw : ¬ ([c] ≠ [] ∧ startsWith [c] (x :: rest) = true) := by
          rintro ⟨-, hsw⟩
          simp only [startsWith, Bool.and_eq_true, decide_eq_true_eq] at hsw
          exact hx hsw.1.symm
        rw [if_neg hsw, ih rest (by simp at hl; omega)]
        rw [List.filter_cons, if_pos (by simp [hx])]

theorem replaceAll_single (c : Char) (l : List Char) :
    replaceAll [c] [] l = l.filter (fun x => x ≠ c) :=
  replaceAllFuel_single c l.length l le_rfl

theorem dropWhile_all_false (p : Char → Bool) (l : List Char)
    (h : ∀ x ∈ l, p x = false) : l.dropWhile p = l := by
  cases l with
  | nil => rfl
  | cons x xs =>
    rw [List.dropWhile_cons, if_neg (by simp [h x (List.mem_cons_self x xs)])]

theorem stripBraces_id (l : List Char) (h : ∀ x ∈ l, isBrace x = false) :
    stripBraces l = l := by
  unfold stripBraces
  rw [dropWhile_all_false _ _ h,
    dropWhile_all_false _ _ (fun x hx => h x (List.mem_reverse.mp hx)),
    List.reverse_reverse]

theorem lowerHex_props (d : Char) (hd : lowerHexDigit d = true) :
    hexDigit d = true ∧ hexChar (hexVal d) = d ∧ hexVal d < 16 ∧
    isPySpace d = false ∧ d ≠ '+' ∧ d ≠ '-' ∧ d ≠ 'x' ∧ d ≠ 'X' ∧
    isBrace d = false ∧ d ≠ ':' := by
  rw [lowerHexDigit] at hd
  simp only [decide_eq_true_eq] at hd
  fin_cases hd <;> decide

theorem hexRun_all (l : List Char) (h : ∀ x ∈ l, hexDigit x = true) (acc : Nat) :
    hexRun acc l = some (l.foldl (fun a c => 16 * a + hexVal c) acc) := by
  induction l generalizing acc with
  | nil => simp [hexRun]
  | cons c rest ih =>
    have hstep : hexRun acc (c :: rest) = hexRun (16 * acc + hexVal c) rest := by
      rw [hexRun.eq_def]
      simp [h c (List.mem_cons_self c rest)]
    rw [hstep, ih (fun x hx => h x (List.mem_cons_of_mem c hx))]
    simp

theorem digitsRun_all (c : Char) (rest : List Char)
    (h : ∀ x ∈ c :: rest, hexDigit x = true) :
    digitsRun (c :: rest)
      = some ((c :: rest).foldl (fun a x => 16 * a + hexVal x) 0) := by
  rw [digitsRun, if_pos (h c (List.mem_cons_self c rest)),
    hexRun_all rest (fun x hx => h x (List.mem_cons_of_mem c hx)) (hexVal c)]
  simp

theorem parseIntHex_lowerHex (l : List Char) (hne : l ≠ [])
    (h : ∀ x ∈ l, lowerHexDigit x = true) :
    parseIntHex l = some (l.foldl (fun a x => 16 * a + hexVal x) 0) := by
  have hspace : ∀ x ∈ l, isPySpace x = false :=
    fun x hx => (lowerHex_props x (h x hx)).2.2.2.1
  have hhex : ∀ x ∈ l, hexDigit x = true :=
    fun x hx => (lowerHex_props x (h x hx)).1
  have h1 : l.dropWhile isPySpace = l := dropWhile_all_false _ _ hspace
  have h2 : (l.reverse.dropWhile isPySpace).reverse = l := by
    rw [dropWhile_all_false _ _ (fun x hx => hspace x (List.mem_reverse.mp hx)),
      List.reverse_reverse]
  cases l with
  | nil => exact absurd rfl hne
  | cons c rest =>
    rw [parseIntHex, h1, h2]
    have hc := lowerHex_props c (h c (List.mem_cons_self c rest))
    show (if c = '+' then parseHexCore rest
      else if c = '-' then none
      else parseHexCore (c :: rest))
      = some (List.foldl (fun a x => 16 * a + hexVal x) 0 (c :: rest))
    rw [if_neg hc.2.2.2.2.1, if_neg hc.2.2.2.2.2.1]
    cases rest with
    | nil => exact digitsRun_all c [] hhex
    | cons c1 rest2 =>
      have hc1 := lowerHex_props c1 (h c1 (List.mem_cons_of_mem c (List.mem_cons_self c1 rest2)))
      have hcore : parseHexCore (c :: c1 :: rest2) = digitsRun (c :: c1 :: rest2) := by
        show (if c = '0' ∧ (c1 = 'x' ∨ c1 = 'X') then parseAfterBase rest2
          else digitsRun (c :: c1 :: rest2)) = digitsRun (c :: c1 :: rest2)
        rw [if_neg (by
          rintro ⟨-, hx | hX⟩
          · exact hc1.2.2.2.2.2.2.1 hx
          · exact hc1.2.2.2.2.2.2.2.1 hX)]
      rw [hcore]
      exact digitsRun_all c (c1 :: rest2) hhex

theorem natToHexPad_foldl (l : List Char) (h : ∀ x ∈ l, lowerHexDigit x = true) :
    natToHexPad l.length (l.foldl (fun a x => 16 * a + hexVal x) 0) = l := by
  induction l using List.reverseRecOn with
  | nil => simp [natToHexPad]
  | append_singleton l d ih =>
    have hd := lowerHex_props d (h d (by simp))
    have hl : ∀ x ∈ l, lowerHexDigit x = true := fun x hx => h x (by simp [hx])
    have hv : hexVal d < 16 := hd.2.2.1
    rw [List.length_append, List.length_singleton, List.foldl_append]
    simp only [List.foldl_cons, List.foldl_nil]
    rw [natToHexPad]
    have hdiv : (16 * l.foldl (fun a x => 16 * a + hexVal x) 0 + hexVal d) / 16
        = l.foldl (fun a x => 16 * a + hexVal x) 0 := by
      rw [Nat.mul_add_div (by omega), Nat.div_eq_of_lt hv, Nat.add_zero]
    have hmod : (16 * l.foldl (fun a x => 16 * a + hexVal x) 0 + hexVal d) % 16
        = hexVal d := by
      rw [Nat.mul_add_mod, Nat.mod_eq_of_lt hv]
    rw [hdiv, hmod, ih hl, hd.2.1]

theorem pyUUID_canonical (l : List Char) (h : isCanonicalUUIDForm l = true) :
    pyUUID l = some l := by
  unfold isCanonicalUUIDForm at h
  rcases hsp : splitOnChar '-' l with _ | ⟨a, rest1⟩
  · exact absurd hsp (splitOnChar_ne_nil '-' l)
  rcases rest1 with _ | ⟨b, rest2⟩
  · rw [hsp] at h; simp at h
  rcases rest2 with _ | ⟨c, rest3⟩
  · rw [hsp] at h; simp at h
  rcases rest3 with _ | ⟨d, rest4⟩
  · rw [hsp] at h; simp at h
  rcases rest4 with _ | ⟨e, rest5⟩
  · rw [hsp] at h; simp at h
  rcases rest5 with _ | ⟨f, rest6⟩
  case cons.cons.cons.cons.cons.cons => rw [hsp] at h; simp at h
  rw [hsp] at h
  simp only [Bool.and_eq_true, decide_eq_true_eq, List.all_eq_true] at h
  obtain ⟨⟨⟨⟨⟨ha, hb⟩, hc⟩, hd⟩, he⟩, hall⟩ := h
  have hga : ∀ x ∈ a, lowerHexDigit x = true := fun x hx => hall x (by simp [hx])
  have hgb : ∀ x ∈ b, lowerHexDigit x = true := fun x hx => hall x (by simp [hx])
  have hgc : ∀ x ∈ c, lowerHexDigit x = true := fun x hx => hall x (by simp [hx])
  have hgd : ∀ x ∈ d, lowerHexDigit x = true := fun x hx => hall x (by simp [hx])
  have hge : ∀ x ∈ e, lowerHexDigit x = true := fun x hx => hall x (by simp [hx])
  have hl : l = a ++ '-' :: (b ++ '-' :: (c ++ '-' :: (d ++ '-' :: e))) := by
    have hj := joinSep_splitOnChar '-' l
    rw [hsp] at hj
    simp only [joinSep] at hj
    exact hj.symm
  have hmem : ∀ x ∈ l, x = '-' ∨ lowerHexDigit x = true := by
    intro x hx
    rw [hl] at hx
    simp only [List.mem_append, List.mem_cons] at hx
    rcases hx with hx | rfl | hx | rfl | hx | rfl | hx | rfl | hx
    · exact Or.inr (hga x hx)
    · exact Or.inl rfl
    · exact Or.inr (hgb x hx)
    · exact Or.inl rfl
    · exact Or.inr (hgc x hx)
    · exact Or.inl rfl
    · exact Or.inr (hgd x hx)
    · exact Or.inl rfl
    · exact Or.inr (hge x hx)
  have hcolon : ':' ∉ l := by
    intro hx
    rcases hmem ':' hx with h1 | h1
    · exact absurd h1 (by decide)
    · exact absurd h1 (by decide)
  have hbrace : ∀ x ∈ l, isBrace x = false := by
    intro x hx
    rcases hmem x hx with rfl | h1
    · decide
    · exact (lowerHex_props x h1).2.2.2.2.2.2.2.2.1
  have hr1 : replaceAll ("urn:".toList) [] l = l :=
    replaceAll_no_occ _ [] ':' (by decide) l hcolon
  have hr2 : replaceAll ("uuid:".toList) [] l = l :=
    replaceAll_no_occ _ [] ':' (by decide) l hcolon
  have hr3 : stripBraces l = l := stripBraces_id l hbrace
  have hfa : ∀ (g : List Char), (∀ x ∈ g, lowerHexDigit x = true) →
      g.filter (fun y => !decide (y = '-')) = g := by
    intro g hg
    apply List.filter_eq_self.mpr
    intro y hy
    simp only [Bool.not_eq_true', decide_eq_false_iff_not]
    exact (lowerHex_props y (hg y hy)).2.2.2.2.2.1
  have hfilter : replaceAll ("-".toList) [] l = a ++ b ++ c ++ d ++ e := by
    rw [show ("-".toList) = ['-'] from rfl, replaceAll_single '-' l, hl]
    simp [List.filter_append, List.filter_cons, hfa a hga, hfa b hgb, hfa c hgc,
      hfa d hgd, hfa e hge]
  have hlen32 : (a ++ b ++ c ++ d ++ e).length = 32 := by
    simp only [List.length_append]
    omega
  rw [pyUUID, hr1, hr2, hr3, hfilter, if_pos hlen32]
  rw [parseIntHex_lowerHex _ (by
      intro hh
      rw [hh] at hlen32
      simp at hlen32) hall]
  simp only [Option.map_some', canonicalOfNat]
  have hh32 : natToHexPad 32 ((a ++ b ++ c ++ d ++ e).foldl
      (fun acc x => 16 * acc + hexVal x) 0) = a ++ b ++ c ++ d ++ e := by
    have := natToHexPad_foldl (a ++ b ++ c ++ d ++ e) hall
    rw [hlen32] at this
    exact this
  rw [hh32]
  have hassoc : a ++ b ++ c ++ d ++ e = a ++ (b ++ (c ++ (d ++ e))) := by
    simp [List.append_assoc]
  rw [hassoc]
  have ht8 : (a ++ (b ++ (c ++ (d ++ e)))).take 8 = a := List.take_left' ha
  have hd8 : (a ++ (b ++ (c ++ (d ++ e)))).drop 8 = b ++ (c ++ (d ++ e)) :=
    List.drop_left' ha
  have hd12 : (a ++ (b ++ (c ++ (d ++ e)))).drop 12 = c ++ (d ++ e) := by
    rw [show a ++ (b ++ (c ++ (d ++ e))) = (a ++ b) ++ (c ++ (d ++ e)) from by
      simp [List.append_assoc]]
    exact List.drop_left' (by simp [ha, hb])
  have hd16 : (a ++ (b ++ (c ++ (d ++ e)))).drop 16 = d ++ e := by
    rw [show a ++ (b ++ (c ++ (d ++ e))) = (a ++ b ++ c) ++ (d ++ e) from by
      simp [List.append_assoc]]
    exact List.drop_left' (by simp [ha, hb, hc])
  have hd20 : (a ++ (b ++ (c ++ (d ++ e)))).drop 20 = e := by
    rw [show a ++ (b ++ (c ++ (d ++ e))) = (a ++ b ++ c ++ d) ++ e from by
      simp [List.append_assoc]]
    exact List.drop_left' (by simp [ha, hb, hc, hd])
  rw [ht8, hd8, hd12, hd16, hd20, List.take_left' hb, List.take_left' hc,
    List.take_left' hd, hl]
  simp [List.append_assoc]

theorem pyIsAlnum_iff (l : List Char) :
    pyIsAlnum l = true ↔ l ≠ [] ∧ ∀ x ∈ l, pyIsAlnumChar x = true := by
  unfold pyIsAlnum
  rw [Bool.and_eq_true, List.all_eq_true]
  constructor
  · rintro ⟨h1, h2⟩
    refine ⟨?_, h2⟩
    intro hl
    subst hl
    simp at h1
  · rintro ⟨h1, h2⟩
    refine ⟨?_, h2⟩
    cases l with
    | nil => exact absurd rfl h1
    | cons x xs => simp

theorem colon_cond_iff (device : List Char) :
    (device.count ':' = 5 ∧ pyIsAlnum (replaceAll [':'] [] device) = true) ↔
    ((splitOnChar ':' device).length = 6 ∧
      (∀ g ∈ splitOnChar ':' device, ∀ c ∈ g, pyIsAlnumChar c = true) ∧
      (splitOnChar ':' device).flatten ≠ []) := by
  rw [replaceAll_single ':' device, pyIsAlnum_iff, splitOnChar_length ':' device]
  have hflat : (splitOnChar ':' device).flatten = device.filter (fun x => x ≠ ':') :=
    splitOnChar_flatten ':' device
  constructor
  · rintro ⟨hcount, hne, hal⟩
    refine ⟨by omega, ?_, ?_⟩
    · intro g hg x hx
      have hxf : x ∈ (splitOnChar ':' device).flatten := List.mem_flatten.mpr ⟨g, hg, hx⟩
      rw [hflat] at hxf
      exact hal x hxf
    · rw [hflat]
      exact hne
  · rintro ⟨hlen, hal, hne⟩
    refine ⟨by omega, ?_, ?_⟩
    · rw [← hflat]
      exact hne
    · intro x hx
      rw [← hflat] at hx
      obtain ⟨g, hg, hxg⟩ := List.mem_flatten.mp hx
      exact hal g hg x hxg

/-- C3 (amended): the first branch is decided by the identifier parser, which
beyond the canonical dashed form also accepts undashed, braced, urn-prefixed
and uppercase spellings, and returns the canonical lowercase dashed form —
the input itself exactly when the input was already canonical; the second
branch returns the string verbatim when it has exactly six colon-separated
groups whose characters are alphanumeric with at least one such character,
hexadecimality not required; in every other case, the empty string included,
the original string is passed to the scanner as the name filter. -/
theorem C3_resolver_amended (device : List Char) :
    classify_device device = amended_resolver device ∧
    (isCanonicalUUIDForm device = true → classify_device device = .ret device) := by
  constructor
  · by_cases hd : device = []
    · subst hd
      decide
    · unfold classify_device amended_resolver
      rw [if_pos hd]
      cases hpu : pyUUID device with
      | some canon => rfl
      | none =>
        show (if device.count ':' = 5 ∧ pyIsAlnum (replaceAll [':'] [] device) = true
            then AddrAction.ret device else AddrAction.scanWith device)
          = (if (splitOnChar ':' device).length = 6 ∧
                (∀ g ∈ splitOnChar ':' device, ∀ c ∈ g, pyIsAlnumChar c = true) ∧
                (splitOnChar ':' device).flatten ≠ []
            then AddrAction.ret device else AddrAction.scanWith device)
        by_cases hcond : device.count ':' = 5 ∧ pyIsAlnum (replaceAll [':'] [] device) = true
        · rw [if_pos hcond, if_pos ((colon_cond_iff device).mp hcond)]
        · rw [if_neg hcond, if_neg (fun hc => hcond ((colon_cond_iff device).mpr hc))]
  · intro hcan
    have hne : device ≠ [] := by
      intro hd
      rw [hd] at hcan
      exact absurd hcan (by decide)
    unfold classify_device
    rw [if_pos hne, pyUUID_canonical device hcan]

/-- C3 counterexample: ZZ:ZZ:ZZ:ZZ:ZZ:ZZ is alphanumeric but not
hexadecimal, so the claim as stated delegates it to the scanner, while
get_device_address returns it verbatim because the code only checks
isalnum on the colon-free remainder. -/
theorem C3_counterexample :
    classify_device ("ZZ:ZZ:ZZ:ZZ:ZZ:ZZ".toList)
        = .ret ("ZZ:ZZ:ZZ:ZZ:ZZ:ZZ".toList) ∧
    claimed_resolver ("ZZ:ZZ:ZZ:ZZ:ZZ:ZZ".toList)
        = .scanWith ("ZZ:ZZ:ZZ:ZZ:ZZ:ZZ".toList) := by
  constructor <;> decide

theorem C3_witness :
    isCanonicalUUIDForm ("12345678-1234-1234-1234-123456789abc".toList) = true ∧
    classify_device ("12345678-1234-1234-1234-123456789abc".toList)
      = .ret ("12345678-1234-1234-1234-123456789abc".toList) :=
  ⟨by decide,
   (C3_resolver_amended ("12345678-1234-1234-1234-123456789abc".toList)).2 (by decide)⟩

theorem chunkify_ne_zero {α : Type} (data : List α) (size : Int) (hsz : size ≠ 0) :
    ∃ cs, chunkify data size = some cs := by
  unfold chunkify
  rw [if_neg hsz]
  exact ⟨_, rfl⟩

theorem streamAll_some (env : Env) (csize : Int) (hsz : csize ≠ 0) :
    ∀ ts, ∃ evs, streamAll env csize ts = some evs ∧
      ∀ e ∈ evs, (∃ c, e = Event.writeChunk c) ∨ e = Event.sleep := by
  intro ts
  induction ts with
  | nil => exact ⟨[], rfl, by simp⟩
  | cons t ts ih =>
    obtain ⟨evs, hev, hprops⟩ := ih
    by_cases ht : t = []
    · exact ⟨evs, by rw [streamAll, if_pos ht, hev], hprops⟩
    · obtain ⟨cs, hcs⟩ := chunkify_ne_zero (env.encodeImg (env.render t) (!env.isatty)) csize hsz
      have hj : jobEvents env csize t
          = some ((cs.map (fun c => [Event.writeChunk c, Event.sleep])).flatten) := by
        rw [jobEvents, hcs]
        rfl
      refine ⟨_, by rw [streamAll, if_neg ht, hj, hev], ?_⟩
      intro e he
      rcases List.mem_append.mp he with he | he
      · obtain ⟨l2, hl2, hel⟩ := List.mem_flatten.mp he
        obtain ⟨c, -, rfl⟩ := List.mem_map.mp hl2
        rcases List.mem_cons.mp hel with rfl | h2
        · exact Or.inl ⟨c, rfl⟩
        · rcases List.mem_cons.mp h2 with rfl | h3
          · exact Or.inr rfl
          · simp at h3
      · exact hprops e he

theorem payloads_blocks (cs : List (List Nat)) :
    chunkPayloads ((cs.map (fun c => [Event.writeChunk c, Event.sleep])).flatten) = cs := by
  induction cs with
  | nil => rfl
  | cons c cs ih =>
    rw [List.map_cons, List.flatten_cons, chunkPayloads, List.filterMap_append]
    have h1 : ([Event.writeChunk c, Event.sleep] : List Event).filterMap
        (fun e => match e with | .writeChunk c => some c | _ => none) = [c] := rfl
    rw [h1]
    unfold chunkPayloads at ih
    rw [ih]
    rfl

theorem streamAll_payloads (env : Env) (csize : Int) (hpos : 0 < csize) :
    ∀ ts evs, streamAll env csize ts = some evs →
      chunkPayloads evs =
        ((ts.filter (fun t => t ≠ [])).map
          (fun t => chunks csize.toNat (env.encodeImg (env.render t) (!env.isatty)))).flatten := by
  intro ts
  induction ts with
  | nil =>
    intro evs h
    rw [streamAll] at h
    cases h
    rfl
  | cons t ts ih =>
    intro evs h
    by_cases ht : t = []
    · rw [streamAll, if_pos ht] at h
      rw [List.filter_cons, if_neg (by simp [ht])]
      exact ih evs h
    · rw [streamAll, if_neg ht] at h
      have hch := chunkify_eq_chunks (env.encodeImg (env.render t) (!env.isatty)) csize hpos
      have hj : jobEvents env csize t
          = some (((chunks csize.toNat (env.encodeImg (env.render t) (!env.isatty))).map
              (fun c => [Event.writeChunk c, Event.sleep])).flatten) := by
        rw [jobEvents, hch]
        rfl
      rw [hj] at h
      cases hrest : streamAll env csize ts with
      | none =>
        rw [hrest] at h
        cases h
      | some rest =>
        rw [hrest] at h
        cases h
        rw [List.filter_cons, if_pos (by simp [ht]), List.map_cons, List.flatten_cons]
        rw [chunkPayloads, List.filterMap_append]
        have h1 := payloads_blocks (chunks csize.toNat (env.encodeImg (env.render t) (!env.isatty)))
        unfold chunkPayloads at h1
        rw [h1]
        have h2 := ih rest hrest
        unfold chunkPayloads at h2
        rw [h2]

/-- C4: in every run that reaches the streaming phase (address resolution
succeeded) and in which the negotiated mtu is not the degenerate value 3
(which would make chunk_size zero and crash chunkify mid-stream), the
preamble write follows the connect step and precedes every fragment write,
and the flush write occurs exactly once, as the final event — also when the
input produced zero print jobs, in which case the body is empty. -/
theorem C4_preamble_then_flush (env : Env) (device addr : List Char)
    (hok : get_device_address env.observed device = .ok addr)
    (hmtu : env.mtu ≠ 3) :
    ∃ body, run_ble env device
        = some { trace := Event.connect addr :: Event.writePrepare :: body ++ [Event.writeFinish],
                 loggedError := none } ∧
      (∀ e ∈ body, (∃ c, e = Event.writeChunk c) ∨ e = Event.sleep) ∧
      (Event.connect addr :: Event.writePrepare :: body ++ [Event.writeFinish]).count
        Event.writeFinish = 1 := by
  have hsz : (env.mtu : Int) - 3 ≠ 0 := by omega
  obtain ⟨evs, hev, hprops⟩ := streamAll_some env _ hsz (get_input_lines env)
  refine ⟨evs, ?_, hprops, ?_⟩
  · rw [run_ble, hok, hev]
  · have h0 : evs.count Event.writeFinish = 0 := by
      rw [List.count_eq_zero]
      intro hmem
      rcases hprops _ hmem with ⟨c, hc⟩ | hc <;> simp at hc
    simp [List.count_cons, List.count_append, h0]

/-- C6: for every connected session that streams successfully, the sequence
of fragment payloads written equals the concatenation, over the non-blank
input lines, of the fragments of each encoded buffer at fragment size
mtu_size - 3: the size used for chunking is the negotiated unit size minus
the fixed protocol overhead of 3. -/
theorem C6_fragment_size (env : Env) (device addr : List Char) (res : RunResult)
    (hok : get_device_address env.observed device = .ok addr)
    (hmtu : 3 < env.mtu)
    (hrun : run_ble env device = some res) :
    chunkPayloads res.trace =
      (((get_input_lines env).filter (fun t => t ≠ [])).map
        (fun t => chunks (env.mtu - 3) (env.encodeImg (env.render t) (!env.isatty)))).flatten := by
  have hpos : (0 : Int) < (env.mtu : Int) - 3 := by omega
  obtain ⟨evs, hev, -⟩ :=
    streamAll_some env ((env.mtu : Int) - 3) (by omega) (get_input_lines env)
  rw [run_ble, hok, hev] at hrun
  injection hrun with hres
  subst hres
  have hp := streamAll_payloads env _ hpos (get_input_lines env) evs hev
  have htoNat : ((env.mtu : Int) - 3).toNat = env.mtu - 3 := by omega
  rw [htoNat] at hp
  show chunkPayloads (Event.connect addr :: Event.writePrepare :: evs ++ [Event.writeFinish]) = _
  have hstep : chunkPayloads
      (Event.connect addr :: Event.writePrepare :: evs ++ [Event.writeFinish])
      = chunkPayloads (evs ++ [Event.writeFinish]) := rfl
  rw [hstep, chunkPayloads, List.filterMap_append]
  unfold chunkPayloads at hp
  rw [hp]
  simp

/-- C7: whenever device resolution fails, the run logs the error and stops
with an empty trace — no connect, preamble, fragment or flush write happens —
and the message is the user-visible printer-not-found text, the only error
get_device_address can produce. -/
theorem C7_not_found_aborts (env : Env) (device e : List Char)
    (herr : get_device_address env.observed device = .error e) :
    run_ble env device = some { trace := [], loggedError := some e } ∧
      e = notFoundMsg := by
  constructor
  · rw [run_ble, herr]
  · unfold get_device_address at herr
    cases hc : classify_device device with
    | ret s =>
      rw [hc] at herr
      cases herr
    | scanWith n =>
      rw [hc] at herr
      have herr2 : (scanFind env.observed n).map (fun d => d.address)
          = Except.error e := herr
      unfold scanFind at herr2
      cases hff : env.observed.find? (fun p => matchesAdv n p.1 p.2) with
      | some p =>
        rw [hff] at herr2
        have hcontr : (Except.ok p.1.address : Except (List Char) (List Char))
            = Except.error e := herr2
        cases hcontr
      | none =>
        rw [hff] at herr2
        have herr3 : (Except.error notFoundMsg : Except (List Char) (List Char))
            = Except.error e := herr2
        injection herr3 with h
        exact h.symm

/-- C10: a device-not-found failure never escapes run_ble: the error is
caught, logged and the coroutine returns normally, so the top-level entry
point of print.py completes without raising on such runs. -/
theorem C10_error_swallowed (env : Env) (device e : List Char)
    (herr : get_device_address env.observed device = .error e) :
    (mainEntry env device).isSome = true ∧
      mainEntry env device = some { trace := [], loggedError := some e } := by
  refine ⟨?_, ?_⟩ <;> rw [mainEntry, run_ble, herr]
  rfl

/-- C5: the scan filter matches on exact advertised-name equality when a
name filter is present; in auto-discovery mode it matches exactly when the
advertised service identifiers intersect the fixed two-element allowlist;
and when nothing observed within the timeout matches, scan fails with the
printer-not-found error. -/
theorem C5_scan_match_policy (name : List Char) (d : BLEDev) (adv : AdvData)
    (observed : List (BLEDev × AdvData)) :
    (name ≠ [] → (matchesAdv name d adv = true ↔ d.name = some name)) ∧
    (name = [] → (matchesAdv name d adv = true ↔
      ∃ u, u ∈ adv.service_uuids ∧ u ∈ POSSIBLE_SERVICE_UUIDS)) ∧
    POSSIBLE_SERVICE_UUIDS.length = 2 ∧
    ((∀ p ∈ observed, matchesAdv name p.1 p.2 = false) →
      scanFind observed name = .error notFoundMsg) := by
  refine ⟨?_, ?_, rfl, ?_⟩
  · intro hne
    rw [matchesAdv, if_neg hne]
    simp
  · intro hname
    rw [matchesAdv, if_pos hname, List.any_eq_true]
    constructor
    · rintro ⟨u, hu, hc⟩
      exact ⟨u, by simpa using hc, hu⟩
    · rintro ⟨u, hu1, hu2⟩
      exact ⟨u, hu2, by simpa using hu1⟩
  · intro hall
    rw [scanFind, List.find?_eq_none.mpr (fun p hp => by simp [hall p hp])]

theorem C4_witness :
    get_device_address wenv.observed [] = .ok ("AA".toList) ∧ wenv.mtu ≠ 3 ∧
    ∃ body, run_ble wenv []
        = some { trace := Event.connect ("AA".toList) :: Event.writePrepare ::
                   body ++ [Event.writeFinish],
                 loggedError := none } ∧
      (∀ e ∈ body, (∃ c, e = Event.writeChunk c) ∨ e = Event.sleep) ∧
      (Event.connect ("AA".toList) :: Event.writePrepare :: body ++ [Event.writeFinish]).count
        Event.writeFinish = 1 :=
  ⟨by decide, by decide,
   C4_preamble_then_flush wenv [] ("AA".toList) (by decide) (by decide)⟩

theorem C5_witness :
    (matchesAdv ("GB02".toList) wdev wadvGood = true ↔ wdev.name = some ("GB02".toList)) ∧
    scanFind [(wdev, wadvBad)] [] = .error notFoundMsg :=
  ⟨(C5_scan_match_policy ("GB02".toList) wdev wadvGood []).1 (by decide),
   (C5_scan_match_policy [] wdev wadvBad [(wdev, wadvBad)]).2.2.2 (by decide)⟩

theorem C6_witness :
    get_device_address wenv.observed [] = .ok ("AA".toList) ∧ 3 < wenv.mtu ∧
    run_ble wenv []
      = some (⟨[Event.connect ("AA".toList), Event.writePrepare, Event.writeFinish],
          none⟩ : RunResult) ∧
    chunkPayloads (⟨[Event.connect ("AA".toList), Event.writePrepare, Event.writeFinish],
        none⟩ : RunResult).trace
      = (((get_input_lines wenv).filter (fun t => t ≠ [])).map
          (fun t => chunks (wenv.mtu - 3) (wenv.encodeImg (wenv.render t) (!wenv.isatty)))).flatten :=
  ⟨by decide, by decide, by decide,
   C6_fragment_size wenv [] ("AA".toList) _ (by decide) (by decide) (by decide)⟩

theorem C7_witness :
    get_device_address wenvEmpty.observed ("kitty".toList) = .error notFoundMsg ∧
    run_ble wenvEmpty ("kitty".toList)
      = some { trace := [], loggedError := some notFoundMsg } :=
  ⟨by decide,
   (C7_not_found_aborts wenvEmpty ("kitty".toList) notFoundMsg (by decide)).1⟩

theorem C10_witness :
    get_device_address wenvEmpty.observed ("nochance".toList) = .error notFoundMsg ∧
    (mainEntry wenvEmpty ("nochance".toList)).isSome = true :=
  ⟨by decide,
   (C10_error_swallowed wenvEmpty ("nochance".toList) notFoundMsg (by decide)).1⟩

/-- C8: blank input lines produce no print job: the streaming loop ignores
blank lines for every input sequence, and on the concrete piped input
hello, blank, world the run produces exactly two print jobs — one fragment
each here — with the preamble written once before either job and the flush
written exactly once after both. -/
theorem C8_blank_lines_skipped :
    (∀ (env : Env) (csize : Int) (ts : List (List Char)),
      streamAll env csize (ts.filter (fun t => t ≠ [])) = streamAll env csize ts) ∧
    get_input_lines env8 = ["hello".toList, [], "world".toList] ∧
    ((get_input_lines env8).filter (fun t => t ≠ [])).length = 2 ∧
    run_ble env8 ("AA:BB:CC:DD:EE:FF".toList) = some
      { trace := [Event.connect ("AA:BB:CC:DD:EE:FF".toList), Event.writePrepare,
          Event.writeChunk [104, 101, 108, 108, 111], Event.sleep,
          Event.writeChunk [119, 111, 114, 108, 100], Event.sleep, Event.writeFinish],
        loggedError := none } ∧
    [Event.connect ("AA:BB:CC:DD:EE:FF".toList), Event.writePrepare,
      Event.writeChunk [104, 101, 108, 108, 111], Event.sleep,
      Event.writeChunk [119, 111, 114, 108, 100], Event.sleep,
      Event.writeFinish].count Event.writePrepare = 1 ∧
    [Event.connect ("AA:BB:CC:DD:EE:FF".toList), Event.writePrepare,
      Event.writeChunk [104, 101, 108, 108, 111], Event.sleep,
      Event.writeChunk [119, 111, 114, 108, 100], Event.sleep,
      Event.writeFinish].count Event.writeFinish = 1 := by
  refine ⟨?_, by decide, by decide, by decide, by decide, by decide⟩
  intro env csize ts
  induction ts with
  | nil => rfl
  | cons t ts ih =>
    by_cases ht : t = []
    · rw [List.filter_cons, if_neg (by simp [ht]), ih]
      conv_rhs => rw [streamAll, if_pos ht]
    · rw [List.filter_cons, if_pos (by simp [ht])]
      rw [streamAll, if_neg ht]
      conv_rhs => rw [streamAll, if_neg ht]
      rw [ih]

end Catprinter
